import Mathlib

/-!
# Verification of the keithley_gui waveform/sweep planning engine

A shallow embedding of `src/keithley_gui/waveform_maker.py` and of the
planning/resume/timing logic of `src/keithley_gui/voltage_sweeper.py`,
with theorems settling the spec claims about them.

Modelling conventions:
* Python floats are modelled by `ℚ` (exact rational arithmetic); float
  literals such as `1e-12` stand for their decimal values.
* `numpy.sin` is floating point and transcendental; the sampled sine value
  at phase fraction `j/n` (i.e. `sin(2*pi*j/n)`) is abstracted as a
  function parameter `sinv : ℚ → ℚ`; no structural property proved here
  depends on its values beyond the explicitly stated fact `sinv 0 = 0`.
* The file system read by the CSV waveform loader is a parameter
  `fs : String → Option LoadedCsv`: `none` models a missing file, and a
  loaded numpy array keeps its 1-D/2-D shape; a non-finite float (nan or
  inf) is an entry `none` inside the array.
* Python exceptions become `Except String`.
-/

namespace KeithleyGui

/-- `ChannelConfig` from `waveform_maker.py` (lines 11-36): one channel's
declarative waveform description and flags. Floats become `ℚ`, ints `ℤ`. -/
structure ChannelConfig where
  channel_name : String
  name : String
  waveform : String
  measure_voltage : Bool
  measure_current : Bool
  start_voltage : ℚ
  first_node : ℚ
  second_node : ℚ
  dV : ℚ
  v_high : ℚ
  v_low : ℚ
  v_mid : ℚ
  v_fixed : ℚ
  n_high : ℤ
  n_low : ℤ
  n_mid : ℤ
  n_ramp : ℤ
  n_offset : ℤ
  v_amp : ℚ
  v_offset : ℚ
  n_period : ℤ
  csv_path : String
  independent : Bool
  link_next : Bool
  deriving Repr, DecidableEq

/-- Python `str.lower()`, written over the string's character list (the
form `String.map` takes in core Lean does not reduce by computation). -/
def lower (s : String) : String := String.mk (s.data.map Char.toLower)

/-- Python `int()` applied to a rational: truncation toward zero
(`-⌊-q⌋ = ⌈q⌉` for negative `q`). -/
def int_trunc (q : ℚ) : ℤ :=
  if 0 ≤ q then ⌊q⌋ else -⌊-q⌋

/-- `numpy.linspace a b n`: `n` evenly spaced samples from `a` to `b`
inclusive (`[a]` when `n = 1`, empty when `n = 0`). -/
def linspace (a b : ℚ) (n : ℕ) : List ℚ :=
  if n = 0 then []
  else if n = 1 then [a]
  else (List.range n).map (fun (i : ℕ) => a + (b - a) * (i : ℚ) / ((n : ℚ) - 1))

/-- The content of a file successfully read by `numpy.loadtxt`: a 1-D or a
2-D numeric array; `none` entries are non-finite floats. -/
inductive LoadedCsv where
  | oneD (vals : List (Option ℚ))
  | twoD (rows : List (List (Option ℚ)))
  deriving Repr, DecidableEq

/-- The file system seen by the CSV loader: `none` is a missing file. -/
def CsvFs : Type := String → Option LoadedCsv

/-- `data[:, 0]` when the loaded array is 2-D, the array itself when 1-D
(mirrors `waveform_maker.py` lines 131-132). -/
def LoadedCsv.first_column : LoadedCsv → List (Option ℚ)
  | .oneD vals => vals
  | .twoD rows => rows.map (fun r => r.headD none)

/-- `build_csv_wave` (`waveform_maker.py` lines 124-136): strip the path,
fail on empty path or missing file, take the first column, drop non-finite
entries, fail when nothing is left. -/
def build_csv_wave (fs : CsvFs) (cfg : ChannelConfig) : Except String (List ℚ) :=
  let path := cfg.csv_path.trim
  if path = "" then .error "CSV waveform selected but no file path provided."
  else
    match fs path with
    | none => .error ("CSV waveform file not found: " ++ path)
    | some arr =>
      let data := arr.first_column.filterMap id
      if data = [] then .error ("CSV waveform file has no numeric values: " ++ path)
      else .ok data

/-- The raw square cycle of `build_square_wave` (`waveform_maker.py`
lines 63-83) before the cyclic offset is applied: low block, ramp up
(interior linspace samples only), high block, ramp down, and one more low
block when `include_final_low` is set. -/
def square_cycle (cfg : ChannelConfig) (include_final_low : Bool) : List ℚ :=
  let n_high := cfg.n_high.toNat
  let n_low := cfg.n_low.toNat
  let n_ramp := cfg.n_ramp.toNat
  let ramp_up := if 0 < n_ramp then ((linspace cfg.v_low cfg.v_high (n_ramp + 2)).drop 1).dropLast else []
  let ramp_down := if 0 < n_ramp then ((linspace cfg.v_high cfg.v_low (n_ramp + 2)).drop 1).dropLast else []
  let high := List.replicate n_high cfg.v_high
  let low := List.replicate n_low cfg.v_low
  let cycle := low ++ ramp_up ++ high ++ ramp_down
  if include_final_low then cycle ++ low else cycle

/-- `build_square_wave` (`waveform_maker.py` lines 63-90): the cycle of
`square_cycle`, degenerating to `[v_low]` when empty, otherwise rotated
left by `n_offset % cycle.size` (Python `%`: nonnegative remainder, i.e.
`Int.emod`). -/
def build_square_wave (cfg : ChannelConfig) (include_final_low : Bool) : List ℚ :=
  let cycle := square_cycle cfg include_final_low
  if cycle.length = 0 then [cfg.v_low]
  else
    let shift := (cfg.n_offset % (cycle.length : ℤ)).toNat
    if shift ≠ 0 then cycle.drop shift ++ cycle.take shift else cycle

/-- `build_square3_wave` (`waveform_maker.py` lines 93-113): mid, low,
mid, high blocks; `[v_mid]` when empty, else the same cyclic rotation. -/
def build_square3_wave (cfg : ChannelConfig) : List ℚ :=
  let mid := List.replicate cfg.n_mid.toNat cfg.v_mid
  let low := List.replicate cfg.n_low.toNat cfg.v_low
  let high := List.replicate cfg.n_high.toNat cfg.v_high
  let cycle := mid ++ low ++ mid ++ high
  if cycle.length = 0 then [cfg.v_mid]
  else
    let shift := (cfg.n_offset % (cycle.length : ℤ)).toNat
    if shift ≠ 0 then cycle.drop shift ++ cycle.take shift else cycle

/-- `build_sine_wave` (`waveform_maker.py` lines 116-121):
`n_period` clamped below by 1 samples of
`v_offset + v_amp * sin(2*pi*j/n)` for `j = 0, …, n-1`
(`np.linspace(0, 2*pi, n, endpoint=False)`).  The floating-point sine
sample at phase fraction `j/n` is the abstract parameter `sinv (j/n)`. -/
def build_sine_wave (sinv : ℚ → ℚ) (cfg : ChannelConfig) : List ℚ :=
  let n := (max 1 cfg.n_period).toNat
  (List.range n).map (fun (j : ℕ) => cfg.v_offset + cfg.v_amp * sinv ((j : ℚ) / (n : ℚ)))

/-- `build_v_range` (`waveform_maker.py` lines 39-60): dispatch on the
lower-cased waveform name; the fallback branch is the triangle
start → first_node → second_node → start, each leg a `linspace` with
`1 + |int(Δ/dV)|` samples and the two interior legs dropping their final
sample; `dV = 0` degenerates to the single start sample. -/
def build_v_range (fs : CsvFs) (sinv : ℚ → ℚ) (cfg : ChannelConfig)
    (square_final_low : Bool) : Except String (List ℚ) :=
  if lower cfg.waveform = "csv" then build_csv_wave fs cfg
  else if lower cfg.waveform = "square" then
    .ok (build_square_wave cfg square_final_low)
  else if lower cfg.waveform = "square-3" then .ok (build_square3_wave cfg)
  else if lower cfg.waveform = "sine" then .ok (build_sine_wave sinv cfg)
  else if lower cfg.waveform = "fixed" then .ok [cfg.v_fixed]
  else if cfg.dV = 0 then .ok [cfg.start_voltage]
  else
    let n1 := 1 + (int_trunc ((cfg.first_node - cfg.start_voltage) / cfg.dV)).natAbs
    let v_range1 := (linspace cfg.start_voltage cfg.first_node n1).dropLast
    let n2 := 1 + (int_trunc ((cfg.second_node - cfg.first_node) / cfg.dV)).natAbs
    let v_range2 := (linspace cfg.first_node cfg.second_node n2).dropLast
    let n3 := 1 + (int_trunc ((cfg.start_voltage - cfg.second_node) / cfg.dV)).natAbs
    let v_range3 := linspace cfg.second_node cfg.start_voltage n3
    .ok (v_range1 ++ v_range2 ++ v_range3)

/-- The loop body of `build_groups` (`waveform_maker.py` lines 139-149):
walk the configs with their index, extend the current group, close it
after a channel whose `link_next` is false, and close a trailing
nonempty group at the end. -/
def build_groups_go (idx : ℕ) (groups : List (List ℕ)) (current : List ℕ) :
    List ChannelConfig → List (List ℕ)
  | [] => if current = [] then groups else groups ++ [current]
  | cfg :: rest =>
    let current2 := current ++ [idx]
    if cfg.link_next then build_groups_go (idx + 1) groups current2 rest
    else build_groups_go (idx + 1) (groups ++ [current2]) [] rest

/-- `build_groups` (`waveform_maker.py` lines 139-149). -/
def build_groups (configs : List ChannelConfig) : List (List ℕ) :=
  build_groups_go 0 [] [] configs

/-- `np.pad(r, (0, n - len r), mode="edge")`: extend on the right by
repeating the last sample.  (`np.pad` with edge mode raises on an empty
input; that case is unreachable from `build_groups` output, where the
default `0` stands in.) -/
def edge_pad (r : List ℚ) (n : ℕ) : List ℚ :=
  r ++ List.replicate (n - r.length) (r.getLastD 0)

/-- `list(zip(*padded))` for lists all of length `max_len`: the rows of the
transposed matrix. -/
def zip_rows (padded : List (List ℚ)) (max_len : ℕ) : List (List ℚ) :=
  (List.range max_len).map (fun j => padded.map (fun r => r.getD j 0))

/-- One group's aligned tuple stream in `iterate_groups`
(`waveform_maker.py` lines 155-162): the member ranges, edge-padded to the
longest member, read off position by position.  (Python's `max` raises on
an empty group; groups built by `build_groups` are nonempty, and the fold
default `0` stands in.) -/
def group_iter (v_ranges : List (List ℚ)) (group : List ℕ) : List (List ℚ) :=
  let group_ranges := group.map (fun i => v_ranges.getD i [])
  let max_len := (group_ranges.map List.length).foldl max 0
  let padded := group_ranges.map (fun r => edge_pad r max_len)
  zip_rows padded max_len

/-- `itertools.product` over a list of lists, row-major: the last factor
varies fastest. -/
def list_prod {α : Type} : List (List α) → List (List α)
  | [] => [[]]
  | l :: ls => l.flatMap (fun x => (list_prod ls).map (fun xs => x :: xs))

/-- Scatter one group's values into the flat per-channel vector
(`waveform_maker.py` lines 167-169): `flat[idx] = val` for the group's
member indices. -/
def place (flat : List ℚ) (group : List ℕ) (values : List ℚ) : List ℚ :=
  (group.zip values).foldl (fun f p => f.set p.1 p.2) flat

/-- `iterate_groups` (`waveform_maker.py` lines 152-171): the cross
product of the per-group aligned streams, each combination scattered into
a flat vector initialised with `0.0` per channel. -/
def iterate_groups (groups : List (List ℕ)) (v_ranges : List (List ℚ)) :
    List (List ℚ) :=
  let group_iters := groups.map (group_iter v_ranges)
  (list_prod group_iters).map (fun combo =>
    ((groups.zip combo).foldl (fun f gv => place f gv.1 gv.2)
      (List.replicate v_ranges.length 0)))

/-- A plan entry (`waveform_maker.py` lines 221-223): the dicts
`{"type": "measure", "dt": …, "volt": …}` and
`{"type": "sleep", "seconds": …}`. -/
inductive PlanEntry where
  | measure (dt : ℚ) (volt : List ℚ)
  | sleep (seconds : ℚ)
  deriving Repr, DecidableEq

/-- Whether a plan entry is a `measure` entry. -/
def PlanEntry.isMeasure : PlanEntry → Bool
  | .measure _ _ => true
  | .sleep _ => false

/-- `build_plan` (`waveform_maker.py` lines 206-224): per-channel ranges,
groups, the per-pass step sequence, then for each `dt` and each
repetition the measure entries of the pass followed by one sleep entry
when `round_delay > 0`. -/
def build_plan (fs : CsvFs) (sinv : ℚ → ℚ) (configs : List ChannelConfig)
    (dt_list : List ℚ) (rep : ℕ) (round_delay : ℚ)
    (square_final_low : Bool) : Except String (List PlanEntry) := do
  let v_ranges ← configs.mapM (fun cfg => build_v_range fs sinv cfg square_final_low)
  let groups := build_groups configs
  let sequence := iterate_groups groups v_ranges
  return dt_list.flatMap (fun dt_in =>
    (List.range rep).flatMap (fun _ =>
      sequence.map (fun volt => PlanEntry.measure dt_in volt) ++
        (if round_delay > 0 then [PlanEntry.sleep round_delay] else [])))

/-- Squared Euclidean distance `sum((a - b)**2 for a, b in zip(volt, lv))`
(`waveform_maker.py` line 253). -/
def dist_sq (volt lv : List ℚ) : ℚ :=
  ((volt.zip lv).map (fun p => (p.1 - p.2) ^ 2)).sum

/-- One candidate update of the `find_resume_index` scan
(`waveform_maker.py` lines 253-260), on the pair of a plan index and its
squared distance: the first candidate, or a strictly smaller distance,
resets the candidate list to that entry; a distance within
`max(1e-12, best * 1e-6)` of the current best is appended; anything else
is ignored. -/
def resume_step (st : Option ℚ × List (ℕ × ℚ)) (p : ℕ × ℚ) :
    Option ℚ × List (ℕ × ℚ) :=
  match st.1 with
  | none => (some p.2, [p])
  | some best =>
    if p.2 < best then (some p.2, [p])
    else
      let tol := max (1 / 10 ^ 12) (best * (1 / 10 ^ 6))
      if p.2 ≤ best + tol then (st.1, st.2 ++ [p]) else st

/-- The per-entry body of the scan (`waveform_maker.py` lines 247-252):
sleep entries and arity mismatches are skipped, a matching measure entry
feeds its index and squared distance to `resume_step`. -/
def resume_scan_body (lv : List ℚ) (st : Option ℚ × List (ℕ × ℚ))
    (ie : ℕ × PlanEntry) : Option ℚ × List (ℕ × ℚ) :=
  match ie.2 with
  | .sleep _ => st
  | .measure _ volt =>
    if volt.length ≠ lv.length then st
    else resume_step st (ie.1, dist_sq volt lv)

/-- The candidate-collecting scan of `find_resume_index`
(`waveform_maker.py` lines 245-260), folded over the indexed plan. -/
def resume_scan (lv : List ℚ) (entries : List (ℕ × PlanEntry)) :
    Option ℚ × List (ℕ × ℚ) :=
  entries.foldl (resume_scan_body lv) (none, [])

/-- `find_resume_index` (`waveform_maker.py` lines 227-265) as called in
this repository (`voltage_sweeper.py` line 188), i.e. with `last_delta`
left at its default `None`: empty plan gives `None`; otherwise the scan
of `resume_scan` runs and the first collected candidate is returned
(line 265; the directional tie-break below line 266 only runs when a
`last_delta` is supplied and is not modelled). -/
def find_resume_index (plan : List PlanEntry) (lv : List ℚ) : Option ℕ :=
  if plan = [] then none
  else
    match (resume_scan lv plan.enum).2 with
    | [] => none
    | c :: _ => some c.1

/-- The per-channel effective integration window of `RunWorker._set_ktime`
(`voltage_sweeper.py` lines 473-480): with `split_for_dual` set, any
channel that measures at least one quantity gets half the step duration;
otherwise only a channel measuring both quantities is halved. -/
def set_ktime_dt_effective (measure_voltage measure_current split_for_dual : Bool)
    (dt_in : ℚ) : ℚ :=
  if split_for_dual ∧ (measure_voltage ∨ measure_current) then dt_in / 2
  else if measure_voltage ∧ measure_current then dt_in / 2
  else dt_in

/-- The NPLC target of `_set_ktime` (`voltage_sweeper.py` lines 493-494):
`dt_effective * linefreq * (1 - delay_ratio)` clamped to `[0.001, 25]`. -/
def set_ktime_nplc_target (dt_effective linefreq_hz delay_ratio : ℚ) : ℚ :=
  max (1 / 1000) (min 25 (dt_effective * linefreq_hz * (1 - delay_ratio)))

/-- The post-measurement delay of `_set_ktime` (`voltage_sweeper.py`
line 502): the step remainder after the applied integration time,
clamped at zero. -/
def set_ktime_delay (dt_effective linefreq_hz nplc_applied : ℚ) : ℚ :=
  max 0 (dt_effective - nplc_applied / linefreq_hz)

/-- The rebuild-on-resume branch of `RunWorker.run` (`voltage_sweeper.py`
lines 187-190): when a last voltage vector exists and `find_resume_index`
yields an anchor, the step index moves there; in every other case —
including an anchorless lookup — the previous step index is kept. -/
def rebuild_step_index (step_index : ℕ) (last_volt : Option (List ℚ))
    (plan : List PlanEntry) : ℕ :=
  match last_volt with
  | none => step_index
  | some lv =>
    match find_resume_index plan lv with
    | none => step_index
    | some r => r

/-- Line 191-192 of `voltage_sweeper.py`: after re-anchoring, the loop
breaks (the run is treated as complete) exactly when the step index is
not below the rebuilt plan's length. -/
def rebuild_breaks (step_index : ℕ) (last_volt : Option (List ℚ))
    (plan : List PlanEntry) : Bool :=
  plan.length ≤ rebuild_step_index step_index last_volt plan

/-- The observable outcome of one `RunWorker.run` invocation, at the
granularity the error-handling claims speak about: the rows submitted to
the recording sink (step index and commanded voltage vector), the payload
of an emitted `error` signal, and whether `finished` was emitted. -/
structure RunOutcome where
  sink : List (ℕ × List ℚ)
  error_emitted : Option String
  finished_emitted : Bool
  deriving Repr, DecidableEq

/-- The body of the run loop of `RunWorker.run` (`voltage_sweeper.py`
lines 177-291) with the pause/stop/rebuild controls quiescent (no pause,
stop or resume request): steps execute in plan order; `stepFail i = some
msg` models a Python exception with text `msg` raised inside step `i`'s
instrument interaction (which in the source precedes the `add_result`
call at line 278); a completed measure step submits its row to the sink.
An exception propagates out with the sink as already written. -/
def run_loop_body (stepFail : ℕ → Option String) (sink : List (ℕ × List ℚ)) :
    List (ℕ × PlanEntry) → Except (List (ℕ × List ℚ) × String) (List (ℕ × List ℚ))
  | [] => .ok sink
  | (i, e) :: rest =>
    match stepFail i with
    | some msg => .error (sink, msg)
    | none =>
      match e with
      | .sleep _ => run_loop_body stepFail sink rest
      | .measure _ volt => run_loop_body stepFail (sink ++ [(i, volt)]) rest

/-- The `try`/`except` wrapper of `RunWorker.run` (`voltage_sweeper.py`
lines 134-307 with the handler at 305-307): a normal exit emits
`finished`; an exception emits `error` with the exception text and then
still emits `finished`; either way the sink keeps what was written. -/
def run_exec (plan : List PlanEntry) (stepFail : ℕ → Option String) : RunOutcome :=
  match run_loop_body stepFail [] plan.enum with
  | .ok sink => ⟨sink, none, true⟩
  | .error (sink, msg) => ⟨sink, some msg, true⟩

/-- The prologue of `RunWorker.run` (`voltage_sweeper.py` lines 143-165)
as a trace of instrument writes: `build_sweepers` (line 16-46) builds
every channel's `v_range` — via `build_v_range`, which raises for a bad
CSV waveform — while issuing no instrument command (its other work is
`getattr` and qcodes parameter bookkeeping); only after it returns do the
ramp-up writes (line 153-155), the trigger-setup writes (line 157-163)
and `build_plan` (line 165) follow.  The result pairs the instrument
writes issued with the escaped exception text, if any. -/
def run_prologue (fs : CsvFs) (sinv : ℚ → ℚ) (configs : List ChannelConfig)
    (dt_list : List ℚ) (rep : ℕ) (round_delay : ℚ) (ramp_up : Bool) :
    List String × Option String :=
  match configs.mapM (fun cfg => build_v_range fs sinv cfg true) with
  | .error e => ([], some e)
  | .ok _v_ranges =>
    let ramp_writes :=
      if ramp_up then configs.map (fun cfg => "ramp " ++ cfg.channel_name) else []
    let trig_writes := configs.map (fun cfg => "trigger_setup " ++ cfg.channel_name)
    match build_plan fs sinv configs dt_list rep round_delay true with
    | .error e => (ramp_writes ++ trig_writes, some e)
    | .ok _plan => (ramp_writes ++ trig_writes, none)

/-! ## Theorems -/

/-- Claim C2, counterexample.  The claim says a channel with only one of
the two quantities requested gets the full nominal step duration for
every value of the `split_for_dual` flag; but `_set_ktime` halves the
window of a current-only channel as soon as `split_for_dual` is set:
with `measure_voltage = false`, `measure_current = true`,
`split_for_dual = true` and a nominal duration of 1 s the effective
window is 1/2 s, not 1 s. -/
theorem set_ktime_single_quantity_halved_counterexample :
    set_ktime_dt_effective false true true 1 = 1 / 2 ∧ ((1 : ℚ) / 2) ≠ 1 := by
  refine ⟨?_, by norm_num⟩
  norm_num [set_ktime_dt_effective]

/-- Claim C2, amended.  A channel with both quantities requested always
gets half the nominal step duration; a channel with exactly one quantity
requested gets the full duration only when `split_for_dual` is off and
half the duration when it is on; a channel with no measurement requested
always gets the full duration. -/
theorem set_ktime_dt_effective_windows (mv mi split : Bool) (dt_in : ℚ) :
    (mv = true → mi = true →
      set_ktime_dt_effective mv mi split dt_in = dt_in / 2) ∧
    (split = false → mv ≠ mi →
      set_ktime_dt_effective mv mi split dt_in = dt_in) ∧
    (split = true → (mv = true ∨ mi = true) →
      set_ktime_dt_effective mv mi split dt_in = dt_in / 2) ∧
    (mv = false → mi = false →
      set_ktime_dt_effective mv mi split dt_in = dt_in) := by
  cases mv <;> cases mi <;> cases split <;>
    simp [set_ktime_dt_effective]

/-- A two-channel plan used to exhibit the resume behaviour when the
stored voltage vector matches no entry (its arity differs from every
entry's). -/
def resumePlanTwoChannel : List PlanEntry :=
  [.measure 1 [0, 0], .measure 1 [0, 0]]

/-- Claim C3, counterexample.  The claim says that when the
`find_resume_index` lookup finds no anchor in the freshly built plan the
run is treated as complete; but the rebuild branch of `RunWorker.run`
then leaves the step index unchanged and breaks only when that stale
index is at or past the end of the new plan: with step index 1, a stored
one-channel voltage vector and a rebuilt two-channel plan of length 2,
the lookup finds nothing and the loop does not break — it keeps
executing Measure steps of the new plan. -/
theorem rebuild_no_anchor_counterexample :
    find_resume_index resumePlanTwoChannel [0] = none ∧
    rebuild_breaks 1 (some [0]) resumePlanTwoChannel = false ∧
    resumePlanTwoChannel.length = 2 := by
  decide

/-- Claim C3, amended.  When the lookup finds no anchor the previous step
index is retained, and the run is treated as complete exactly when that
retained index is not below the new plan's length; otherwise execution
continues from the retained index into the new plan. -/
theorem rebuild_no_anchor_keeps_index (si : ℕ) (lv : List ℚ)
    (plan : List PlanEntry) (h : find_resume_index plan lv = none) :
    rebuild_step_index si (some lv) plan = si ∧
    (rebuild_breaks si (some lv) plan = true ↔ plan.length ≤ si) := by
  constructor
  · simp [rebuild_step_index, h]
  · simp [rebuild_breaks, rebuild_step_index, h]

/-- Witness for `rebuild_no_anchor_keeps_index` at a concrete anchorless
resume. -/
theorem rebuild_no_anchor_keeps_index_witness :
    rebuild_step_index 1 (some [0]) resumePlanTwoChannel = 1 ∧
    (rebuild_breaks 1 (some [0]) resumePlanTwoChannel = true ↔
      resumePlanTwoChannel.length ≤ 1) :=
  rebuild_no_anchor_keeps_index 1 [0] resumePlanTwoChannel (by decide)

/-- Claim C10.  `build_sine_wave` clamps `n_period` below by 1, so its
output is never empty; and for `n_period ≤ 0` it returns exactly one
sample, which is `v_offset` because the sine sample at phase 0 vanishes
(`sinv 0 = 0` models `sin 0 = 0`). -/
theorem build_sine_wave_clamps_to_one (sinv : ℚ → ℚ) (cfg : ChannelConfig) :
    build_sine_wave sinv cfg ≠ [] ∧
    (build_sine_wave sinv cfg).length = (max 1 cfg.n_period).toNat ∧
    (sinv 0 = 0 → cfg.n_period ≤ 0 →
      build_sine_wave sinv cfg = [cfg.v_offset]) := by
  have h0 : (1 : ℤ) ≤ max 1 cfg.n_period := le_max_left 1 cfg.n_period
  refine ⟨?_, ?_, ?_⟩
  · simp only [build_sine_wave, ne_eq, List.map_eq_nil_iff, List.range_eq_nil]
    omega
  · simp only [build_sine_wave, List.length_map, List.length_range]
  · intro hs hn
    have h1 : max 1 cfg.n_period = 1 := by
      rcases max_choice 1 cfg.n_period with h | h
      · exact h
      · omega
    simp [build_sine_wave, h1, hs, List.range_succ]

/-- The triangle config of the spec's concrete scenario 1:
start 0, first node 1, second node −1, `dV = 0.5`. -/
def triangleDemoCfg : ChannelConfig where
  channel_name := "k1.smua"
  name := "ch1"
  waveform := "Triangle"
  measure_voltage := false
  measure_current := true
  start_voltage := 0
  first_node := 1
  second_node := -1
  dV := 1 / 2
  v_high := 0
  v_low := 0
  v_mid := 0
  v_fixed := 0
  n_high := 0
  n_low := 0
  n_mid := 0
  n_ramp := 0
  n_offset := 0
  v_amp := 0
  v_offset := 0
  n_period := 1
  csv_path := ""
  independent := false
  link_next := false

/-- Claim C5.  The triangle waveform with start 0, first node 1, second
node −1 and `dV = 0.5` is exactly the 9-sample sequence
`[0, 0.5, 1, 0.5, 0, −0.5, −1, −0.5, 0]`; and every triangle config with
`dV = 0` yields the single sample `[start_voltage]`. -/
theorem triangle_generate_values (fs : CsvFs) (sinv : ℚ → ℚ) (sfl : Bool) :
    build_v_range fs sinv triangleDemoCfg sfl =
      .ok [0, 1/2, 1, 1/2, 0, -(1/2), -1, -(1/2), 0] ∧
    (∀ cfg : ChannelConfig, lower cfg.waveform = "triangle" → cfg.dV = 0 →
      build_v_range fs sinv cfg sfl = .ok [cfg.start_voltage]) := by
  constructor
  · simp only [build_v_range, triangleDemoCfg,
      show lower "Triangle" = "triangle" from rfl]
    norm_num [int_trunc, linspace, List.range_succ]
    simp
  · intro cfg h1 h2
    simp [build_v_range, h1, h2]

/-- Normal form of `build_square_wave`: the degenerate `[v_low]` when the
cycle is empty, and otherwise a left rotation of the raw cycle by
`n_offset mod length`. -/
theorem build_square_wave_eq (cfg : ChannelConfig) (fl : Bool) :
    build_square_wave cfg fl =
      if (square_cycle cfg fl).length = 0 then [cfg.v_low]
      else (square_cycle cfg fl).rotate
        (cfg.n_offset % (((square_cycle cfg fl).length : ℤ))).toNat := by
  unfold build_square_wave
  by_cases h : (square_cycle cfg fl).length = 0
  · simp [h]
  · have hpos : 0 < (square_cycle cfg fl).length := Nat.pos_of_ne_zero h
    have hlt : cfg.n_offset % (((square_cycle cfg fl).length : ℤ)) <
        ((square_cycle cfg fl).length : ℤ) :=
      Int.emod_lt_of_pos cfg.n_offset (by exact_mod_cast hpos)
    have hle : (cfg.n_offset % (((square_cycle cfg fl).length : ℤ))).toNat ≤
        (square_cycle cfg fl).length := by omega
    by_cases hs : (cfg.n_offset % (((square_cycle cfg fl).length : ℤ))).toNat = 0
    · simp [h, hs, List.rotate_zero]
    · simp [h, hs, List.rotate_eq_drop_append_take hle]

/-- Claim C6.  For every square-wave config, the generated wave with
offset `n_offset` is the offset-0 wave rotated left by
`n_offset mod cycle_length` (Python `%`, i.e. nonnegative remainder,
`cycle_length` being the generated cycle's length); in particular
shifting `n_offset` by exactly the cycle length changes nothing. -/
theorem build_square_wave_cyclic_offset (cfg : ChannelConfig) (fl : Bool) :
    build_square_wave cfg fl =
      (build_square_wave { cfg with n_offset := 0 } fl).rotate
        (cfg.n_offset %
          (((build_square_wave { cfg with n_offset := 0 } fl).length : ℤ))).toNat ∧
    build_square_wave
        { cfg with n_offset :=
            cfg.n_offset +
              ((build_square_wave { cfg with n_offset := 0 } fl).length : ℤ) } fl =
      build_square_wave cfg fl := by
  have hcyc0 : square_cycle { cfg with n_offset := 0 } fl = square_cycle cfg fl := rfl
  by_cases h : (square_cycle cfg fl).length = 0
  · have hbase : build_square_wave { cfg with n_offset := 0 } fl = [cfg.v_low] := by
      rw [build_square_wave_eq, hcyc0, if_pos h]
    have hcur : build_square_wave cfg fl = [cfg.v_low] := by
      rw [build_square_wave_eq, if_pos h]
    rw [hbase, hcur]
    constructor
    · have hz : (cfg.n_offset % (([cfg.v_low].length : ℤ))).toNat = 0 := by
        simp only [List.length_singleton]
        omega
      rw [hz, List.rotate_zero]
    · rw [build_square_wave_eq,
        show square_cycle
            { cfg with n_offset := cfg.n_offset + (([cfg.v_low].length : ℤ)) } fl =
          square_cycle cfg fl from rfl, if_pos h]
  · have hbase : build_square_wave { cfg with n_offset := 0 } fl = square_cycle cfg fl := by
      rw [build_square_wave_eq, hcyc0, if_neg h]
      rw [Int.zero_emod]
      simp [List.rotate_zero]
    rw [hbase]
    constructor
    · rw [build_square_wave_eq, if_neg h]
    · rw [build_square_wave_eq,
        show square_cycle
            { cfg with n_offset :=
                cfg.n_offset + (((square_cycle cfg fl).length : ℤ)) } fl =
          square_cycle cfg fl from rfl,
        if_neg h, build_square_wave_eq cfg fl, if_neg h]
      simp only [Int.add_emod_self]

/-- The `link_next` flag of the channel declared at position `i`
(`false` out of range). -/
def link_next_at (configs : List ChannelConfig) (i : ℕ) : Bool :=
  ((configs[i]?).map ChannelConfig.link_next).getD false

/-- A group is well formed for `configs`: nonempty, every member but the
last carries `link_next = true`, and the last member either ends the
config list or carries `link_next = false`. -/
def good_group (configs : List ChannelConfig) (g : List ℕ) : Prop :=
  g ≠ [] ∧ (∀ i ∈ g.dropLast, link_next_at configs i = true) ∧
    (∀ i, g.getLast? = some i →
      i + 1 = configs.length ∨ link_next_at configs i = false)

/-- Flattening the result of the `build_groups` loop: closed groups, the
open run, then one index per remaining config, in order. -/
theorem build_groups_go_flatten (rest : List ChannelConfig) :
    ∀ (idx : ℕ) (groups : List (List ℕ)) (current : List ℕ),
      (build_groups_go idx groups current rest).flatten =
        groups.flatten ++ current ++ List.range' idx rest.length := by
  induction rest with
  | nil =>
    intro idx groups current
    by_cases h : current = [] <;> simp [build_groups_go, h]
  | cons cfg rest2 ih =>
    intro idx groups current
    by_cases h : cfg.link_next <;>
      simp [build_groups_go, h, ih, List.range'_succ, List.append_assoc]

/-- Every group emitted by the `build_groups` loop is well formed,
provided the loop state describes an actual walk of `configs`. -/
theorem build_groups_go_good (configs : List ChannelConfig) :
    ∀ (rest : List ChannelConfig) (idx : ℕ) (groups : List (List ℕ))
      (current : List ℕ),
      rest = configs.drop idx →
      idx + rest.length = configs.length →
      (∀ g ∈ groups, good_group configs g) →
      (∀ i ∈ current, link_next_at configs i = true) →
      (current = [] ∨ current.getLast? = some (idx - 1)) →
      (current ≠ [] → 1 ≤ idx) →
      ∀ g ∈ build_groups_go idx groups current rest, good_group configs g := by
  intro rest
  induction rest with
  | nil =>
    intro idx groups current hdrop hlen hg hcur hlast hne g hmem
    by_cases h : current = []
    · rw [build_groups_go, if_pos h] at hmem
      exact hg g hmem
    · rw [build_groups_go, if_neg h] at hmem
      rcases List.mem_append.1 hmem with hmem2 | hmem2
      · exact hg g hmem2
      · have hgcur : g = current := by simpa using hmem2
        subst hgcur
        refine ⟨h, ?_, ?_⟩
        · intro i hi
          exact hcur i (List.dropLast_subset _ hi)
        · intro i hilast
          rcases hlast with hl | hl
          · exact absurd hl h
          · rw [hilast] at hl
            have hidx : i = idx - 1 := Option.some.inj hl
            have h1 : 1 ≤ idx := hne h
            simp only [List.length_nil] at hlen
            left
            omega
  | cons cfg rest2 ih =>
    intro idx groups current hdrop hlen hg hcur hlast hne g hmem
    have hidxlt : idx < configs.length := by
      simp only [List.length_cons] at hlen
      omega
    have hsplit : configs.drop idx = configs[idx] :: configs.drop (idx + 1) :=
      List.drop_eq_getElem_cons hidxlt
    rw [hsplit] at hdrop
    have hcfg : configs[idx] = cfg := by
      injection hdrop.symm
    have hrest2 : rest2 = configs.drop (idx + 1) := by
      injection hdrop.symm with h1 h2
      exact h2.symm
    have hlinkat : link_next_at configs idx = cfg.link_next := by
      simp [link_next_at, List.getElem?_eq_getElem hidxlt, hcfg]
    have hlen2 : idx + 1 + rest2.length = configs.length := by
      simp only [List.length_cons] at hlen
      omega
    by_cases h : cfg.link_next
    · rw [build_groups_go, if_pos h] at hmem
      refine ih (idx + 1) groups (current ++ [idx]) hrest2 hlen2 hg ?_ ?_ ?_ g hmem
      · intro i hi
        rcases List.mem_append.1 hi with hi2 | hi2
        · exact hcur i hi2
        · have : i = idx := by simpa using hi2
          subst this
          rw [hlinkat, h]
      · right
        simp [List.getLast?_concat]
      · intro _
        omega
    · rw [build_groups_go, if_neg h] at hmem
      refine ih (idx + 1) (groups ++ [current ++ [idx]]) [] hrest2 hlen2 ?_
        (by intro i hi; simp at hi) (Or.inl rfl) (by intro hc; exact absurd rfl hc)
        g hmem
      intro g2 hg2
      rcases List.mem_append.1 hg2 with hg3 | hg3
      · exact hg g2 hg3
      · have : g2 = current ++ [idx] := by simpa using hg3
        subst this
        refine ⟨by simp, ?_, ?_⟩
        · intro i hi
          rw [List.dropLast_concat] at hi
          exact hcur i hi
        · intro i hilast
          rw [List.getLast?_concat] at hilast
          have : i = idx := by injection hilast.symm
          subst this
          right
          rw [hlinkat]
          simpa using h

/-- Claim C9.  `build_groups` partitions the channel indices
`0 … n−1`: flattening the groups in order gives exactly `range n` (so
every index is in exactly one group and both in-group order and group
order follow declaration order), every group is nonempty, all but the
last member of a group carry `link_next = true`, and a group's last
member either carries `link_next = false` or is the final channel (a
trailing `link_next = true` channel still closes its group at the end
of the list). -/
theorem build_groups_partition (configs : List ChannelConfig) :
    (build_groups configs).flatten = List.range configs.length ∧
    ∀ g ∈ build_groups configs, g ≠ [] ∧
      (∀ i ∈ g.dropLast, link_next_at configs i = true) ∧
      (∀ i, g.getLast? = some i →
        i + 1 = configs.length ∨ link_next_at configs i = false) := by
  constructor
  · have h := build_groups_go_flatten configs 0 [] []
    simpa [build_groups, List.range_eq_range'] using h
  · intro g hg
    exact build_groups_go_good configs configs 0 [] [] (by simp) (by simp)
      (by intro g2 hg2; simp at hg2) (by intro i hi; simp at hi) (Or.inl rfl)
      (by intro hc; exact absurd rfl hc) g hg

/-- The sink rows produced by the measure entries of an indexed plan
segment. -/
def measure_rows (entries : List (ℕ × PlanEntry)) : List (ℕ × List ℚ) :=
  entries.filterMap (fun p =>
    match p.2 with
    | .measure _ volt => some (p.1, volt)
    | .sleep _ => none)

/-- A run segment whose steps all succeed submits exactly its measure
rows after the sink it started with. -/
theorem run_loop_body_ok (stepFail : ℕ → Option String) :
    ∀ (entries : List (ℕ × PlanEntry)) (sink : List (ℕ × List ℚ)),
      (∀ p ∈ entries, stepFail p.1 = none) →
      run_loop_body stepFail sink entries = .ok (sink ++ measure_rows entries) := by
  intro entries
  induction entries with
  | nil => intro sink _; simp [run_loop_body, measure_rows]
  | cons p rest ih =>
    intro sink h
    have hp : stepFail p.1 = none := h p (List.mem_cons_self p rest)
    have hrest : ∀ q ∈ rest, stepFail q.1 = none := fun q hq =>
      h q (List.mem_cons_of_mem p hq)
    obtain ⟨i, e⟩ := p
    cases e with
    | sleep s => simp [run_loop_body, hp, ih sink hrest, measure_rows]
    | measure dt volt =>
      simp [run_loop_body, hp, ih (sink ++ [(i, volt)]) hrest, measure_rows]

/-- A run segment whose first failing step is after prefix `pre` stops
there: the exception text escapes and the sink holds the starting rows
plus exactly the measure rows of `pre`. -/
theorem run_loop_body_error (stepFail : ℕ → Option String) :
    ∀ (pre : List (ℕ × PlanEntry)) (i : ℕ) (e : PlanEntry) (msg : String)
      (post : List (ℕ × PlanEntry)) (sink : List (ℕ × List ℚ)),
      (∀ p ∈ pre, stepFail p.1 = none) → stepFail i = some msg →
      run_loop_body stepFail sink (pre ++ (i, e) :: post) =
        .error (sink ++ measure_rows pre, msg) := by
  intro pre
  induction pre with
  | nil =>
    intro i e msg post sink _ hfail
    simp [run_loop_body, hfail, measure_rows]
  | cons p rest ih =>
    intro i e msg post sink h hfail
    have hp : stepFail p.1 = none := h p (List.mem_cons_self p rest)
    have hrest : ∀ q ∈ rest, stepFail q.1 = none := fun q hq =>
      h q (List.mem_cons_of_mem p hq)
    obtain ⟨j, e2⟩ := p
    cases e2 with
    | sleep s => simp [run_loop_body, hp, ih i e msg post sink hrest hfail, measure_rows]
    | measure dt volt =>
      simp [run_loop_body, hp, ih i e msg post (sink ++ [(j, volt)]) hrest hfail,
        measure_rows]

/-- Entries in the first `i` positions of an indexed plan carry indices
below `i`. -/
theorem mem_take_enum_fst_lt (l : List PlanEntry) (i : ℕ) (p : ℕ × PlanEntry)
    (hp : p ∈ l.enum.take i) : p.1 < i := by
  obtain ⟨j, hj⟩ := List.mem_iff_getElem?.1 hp
  have hjlen := (List.getElem?_eq_some_iff.1 hj).1
  have hji : j < i := by
    have := List.length_take i l.enum
    omega
  rw [List.getElem?_take_of_lt hji] at hj
  have : l.enum[j]? = l[j]?.map fun a => (j, a) := List.getElem?_enum l j
  rw [this] at hj
  cases hx : l[j]? with
  | none => rw [hx] at hj; simp at hj
  | some x =>
    rw [hx] at hj
    have hpj : (j, x) = p := by simpa using hj
    have : p.1 = j := by rw [← hpj]
    omega

/-- Claim C8.  Whatever the step failures, the run-finished signal is
emitted; and when the first exception arises inside step `i` of the run
loop, the run aborts there, the error signal carries that exception's
text, the finished signal still follows, and the sink keeps exactly the
rows submitted by the measure steps that completed before step `i`. -/
theorem run_failure_semantics (plan : List PlanEntry)
    (stepFail : ℕ → Option String) :
    (run_exec plan stepFail).finished_emitted = true ∧
    (∀ i msg, i < plan.length → (∀ j, j < i → stepFail j = none) →
      stepFail i = some msg →
      run_exec plan stepFail =
        ⟨measure_rows (plan.enum.take i), some msg, true⟩) := by
  constructor
  · cases hrb : run_loop_body stepFail [] plan.enum <;> simp [run_exec, hrb]
  · intro i msg hi hprev hfail
    have hlen : plan.enum.length = plan.length := List.enum_length
    have hsplit : plan.enum = plan.enum.take i ++ plan.enum.drop i :=
      (List.take_append_drop i plan.enum).symm
    have hienum : i < plan.enum.length := by omega
    have hdrop : plan.enum.drop i = plan.enum[i] :: plan.enum.drop (i + 1) :=
      List.drop_eq_getElem_cons hienum
    have hpre : ∀ p ∈ plan.enum.take i, stepFail p.1 = none := by
      intro p hp
      exact hprev p.1 (mem_take_enum_fst_lt plan i p hp)
    have hgi : plan.enum[i] = (i, plan[i]) := List.getElem_enum plan i hienum
    have key := run_loop_body_error stepFail (plan.enum.take i) i plan[i] msg
      (plan.enum.drop (i + 1)) [] hpre hfail
    have harr : plan.enum.take i ++ (i, plan[i]) :: plan.enum.drop (i + 1) =
        plan.enum := by
      rw [← hgi, ← hdrop]
      exact List.take_append_drop i plan.enum
    rw [harr] at key
    simp only [List.nil_append] at key
    simp [run_exec, key]

/-- If any element of a list makes `f` fail, `mapM f` fails (with the
first such element's message). -/
theorem mapM_error_of_mem {α β : Type} (f : α → Except String β) :
    ∀ (l : List α) (a : α), a ∈ l → (∃ e, f a = .error e) →
      ∃ e2, l.mapM f = .error e2 := by
  intro l
  induction l with
  | nil => intro a ha; exact absurd ha (List.not_mem_nil a)
  | cons b rest ih =>
    intro a ha he
    cases hfb : f b with
    | error e => exact ⟨e, by rw [List.mapM_cons, hfb]; rfl⟩
    | ok x =>
      rcases List.mem_cons.1 ha with rfl | ha2
      · obtain ⟨e, he2⟩ := he
        rw [hfb] at he2
        exact absurd he2 (by simp)
      · obtain ⟨e2, he2⟩ := ih a ha2 he
        refine ⟨e2, ?_⟩
        rw [List.mapM_cons, hfb, he2]
        rfl

/-- Claim C7.  `build_csv_wave` fails exactly when the stripped path is
empty, the file is missing, or the loaded data has no finite first-column
value; a successful load returns the first column with the non-finite
entries dropped; and when a CSV config's waveform build fails, the run
prologue issues no instrument write at all — the exception escapes
before the ramp-up and trigger-setup writes. -/
theorem csv_wave_error_conditions (fs : CsvFs) (cfg : ChannelConfig) :
    ((∃ e, build_csv_wave fs cfg = .error e) ↔
      (cfg.csv_path.trim = "" ∨ fs cfg.csv_path.trim = none ∨
        ∃ arr, fs cfg.csv_path.trim = some arr ∧
          arr.first_column.filterMap id = [])) ∧
    (∀ xs, build_csv_wave fs cfg = .ok xs →
      ∃ arr, fs cfg.csv_path.trim = some arr ∧
        xs = arr.first_column.filterMap id) ∧
    (∀ (sinv : ℚ → ℚ) (configs : List ChannelConfig) (dt_list : List ℚ)
      (rep : ℕ) (round_delay : ℚ) (ramp_up : Bool) (e : String),
      cfg ∈ configs → lower cfg.waveform = "csv" →
      build_csv_wave fs cfg = .error e →
      (run_prologue fs sinv configs dt_list rep round_delay ramp_up).1 = [] ∧
      (run_prologue fs sinv configs dt_list rep round_delay ramp_up).2.isSome
        = true) := by
  refine ⟨?_, ?_, ?_⟩
  · by_cases hp : cfg.csv_path.trim = ""
    · simp [build_csv_wave, hp]
    · cases hfs : fs cfg.csv_path.trim with
      | none => simp [build_csv_wave, hp, hfs]
      | some arr =>
        by_cases hdata : arr.first_column.filterMap id = []
        · simp only [build_csv_wave, hfs, hp, if_neg hp, hdata, if_pos rfl]
          constructor
          · intro _
            exact Or.inr (Or.inr ⟨arr, rfl, hdata⟩)
          · intro _
            exact ⟨"CSV waveform file has no numeric values: " ++ cfg.csv_path.trim,
              by simp⟩
        · simp only [build_csv_wave, hfs, if_neg hp, if_neg hdata]
          constructor
          · intro ⟨e, he⟩
            exact absurd he (by simp)
          · intro h
            rcases h with h | h | ⟨arr2, harr2, hh⟩
            · exact absurd h hp
            · exact absurd h (by simp)
            · have : arr = arr2 := Option.some.inj harr2
              rw [← this] at hh
              exact absurd hh hdata
  · intro xs hxs
    by_cases hp : cfg.csv_path.trim = ""
    · simp [build_csv_wave, hp] at hxs
    · cases hfs : fs cfg.csv_path.trim with
      | none => simp [build_csv_wave, hp, hfs] at hxs
      | some arr =>
        refine ⟨arr, rfl, ?_⟩
        by_cases hdata : arr.first_column.filterMap id = []
        · simp [build_csv_wave, hp, hfs, hdata] at hxs
        · simp [build_csv_wave, hp, hfs, hdata] at hxs
          exact hxs.symm
  · intro sinv configs dt_list rep round_delay ramp_up e hmem hwave herr
    have hvr : build_v_range fs sinv cfg true = .error e := by
      simp [build_v_range, hwave, herr]
    obtain ⟨e2, he2⟩ := mapM_error_of_mem
      (fun c => build_v_range fs sinv c true) configs cfg hmem ⟨e, hvr⟩
    rw [run_prologue, he2]
    simp

/-- Reading a list back off by position. -/
theorem getD_range_eq (r : List ℚ) :
    (List.range r.length).map (fun j => r.getD j 0) = r := by
  apply List.ext_getElem
  · simp
  · intro i h1 h2
    simp [List.getD_eq_getElem?_getD, List.getElem?_eq_getElem h2]

/-- A singleton group's aligned stream is its own range, one singleton
tuple per sample (padding and transposition are trivial). -/
theorem group_iter_singleton (v_ranges : List (List ℚ)) (k : ℕ) :
    group_iter v_ranges [k] = (v_ranges.getD k []).map (fun x => [x]) := by
  unfold group_iter zip_rows edge_pad
  simp only [List.map_cons, List.map_nil, List.foldl_cons, List.foldl_nil,
    Nat.zero_max, Nat.sub_self, List.replicate_zero, List.append_nil]
  rw [show (fun (j : ℕ) => [(v_ranges.getD k []).getD j 0]) =
      ((fun x => [x]) ∘ (fun j => (v_ranges.getD k []).getD j 0)) from rfl]
  rw [← List.map_map, getD_range_eq]

/-- Mapping into singleton lists and flattening is just mapping. -/
theorem flatMap_singleton_eq_map {α β : Type} (f : α → β) (l : List α) :
    l.flatMap (fun x => [f x]) = l.map f := by
  induction l with
  | nil => rfl
  | cons b bs ih => simp [ih]

/-- Pointwise equal functions give equal flat maps. -/
theorem flatMap_congr {α β : Type} {l : List α} {f g : α → List β}
    (h : ∀ a ∈ l, f a = g a) : l.flatMap f = l.flatMap g := by
  induction l with
  | nil => rfl
  | cons b bs ih =>
    simp only [List.flatMap_cons]
    rw [h b (List.mem_cons_self b bs),
      ih (fun a ha => h a (List.mem_cons_of_mem b ha))]

/-- `itertools.product` of exactly two streams, row-major. -/
theorem list_prod_pair (A B : List (List ℚ)) :
    list_prod [A, B] = A.flatMap (fun a => B.map (fun b => [a, b])) := by
  simp only [list_prod, List.map_cons, List.map_nil]
  apply flatMap_congr
  intro a _
  rw [flatMap_singleton_eq_map (fun y => [y]) B, List.map_map]
  apply List.map_congr_left
  intro b _
  rfl

/-- `iterate_groups` on two singleton groups is the row-major cross
product of the two ranges. -/
theorem iterate_groups_pair (r1 r2 : List ℚ) :
    iterate_groups [[0], [1]] [r1, r2] =
      r1.flatMap (fun a => r2.map (fun b => [a, b])) := by
  unfold iterate_groups
  simp only [List.map_cons, List.map_nil, group_iter_singleton]
  have h0 : ([r1, r2].getD 0 []) = r1 := rfl
  have h1 : ([r1, r2].getD 1 []) = r2 := rfl
  rw [h0, h1, list_prod_pair, List.map_flatMap, List.flatMap_map]
  apply flatMap_congr
  intro a _
  simp only [Function.comp, List.map_map]
  apply List.map_congr_left
  intro b _
  rfl

/-- Two configs not linked to their successors form the two singleton
groups. -/
theorem build_groups_two_unlinked (cfg1 cfg2 : ChannelConfig)
    (h1 : cfg1.link_next = false) (h2 : cfg2.link_next = false) :
    build_groups [cfg1, cfg2] = [[0], [1]] := by
  simp [build_groups, build_groups_go, h1, h2]

/-- The measure count of one pass with its optional trailing sleep. -/
theorem countP_pass (r1 r2 : List ℚ) (dt_in round_delay : ℚ) :
    ((r1.flatMap (fun a => r2.map (fun b => PlanEntry.measure dt_in [a, b]))) ++
      (if round_delay > 0 then [PlanEntry.sleep round_delay] else [])).countP
        (fun e => e.isMeasure) = r1.length * r2.length := by
  rw [List.countP_append]
  have hpass : (r1.flatMap
      (fun a => r2.map (fun b => PlanEntry.measure dt_in [a, b]))).countP
        (fun e => e.isMeasure) = r1.length * r2.length := by
    rw [List.countP_flatMap]
    have : ∀ a : ℚ, (List.countP (fun e => e.isMeasure) ∘
        fun a => r2.map (fun b => PlanEntry.measure dt_in [a, b])) a =
          r2.length := by
      intro a
      simp only [Function.comp]
      rw [List.countP_map]
      simp [PlanEntry.isMeasure, Function.comp]
    rw [List.map_congr_left (fun a _ => this a)]
    simp [List.map_const', List.sum_const_nat, Nat.mul_comm]
  have hsleep : (if round_delay > 0 then [PlanEntry.sleep round_delay]
      else []).countP (fun e => e.isMeasure) = 0 := by
    split
    · simp [List.countP_cons, PlanEntry.isMeasure]
    · simp
  omega

/-- Claim C4.  For two configs with `link_next = false` whose generated
sequences are `r1` and `r2`, `build_plan` is exactly: for each `dt`, for
each repetition, the row-major cross product (first config slowest) of
`r1` and `r2` as Measure entries, followed by one sleep entry when
`round_delay > 0`; the Measure count is
`|dt_list| * repeat * (|r1| * |r2|)`. -/
theorem build_plan_cross_product (fs : CsvFs) (sinv : ℚ → ℚ)
    (cfg1 cfg2 : ChannelConfig) (dt_list : List ℚ) (rep : ℕ)
    (round_delay : ℚ) (sfl : Bool) (r1 r2 : List ℚ)
    (h1 : cfg1.link_next = false) (h2 : cfg2.link_next = false)
    (hr1 : build_v_range fs sinv cfg1 sfl = .ok r1)
    (hr2 : build_v_range fs sinv cfg2 sfl = .ok r2) :
    build_plan fs sinv [cfg1, cfg2] dt_list rep round_delay sfl =
      .ok (dt_list.flatMap (fun dt_in => (List.range rep).flatMap (fun _ =>
        (r1.flatMap (fun a =>
          r2.map (fun b => PlanEntry.measure dt_in [a, b]))) ++
          (if round_delay > 0 then [PlanEntry.sleep round_delay] else [])))) ∧
    (∀ plan, build_plan fs sinv [cfg1, cfg2] dt_list rep round_delay sfl =
        .ok plan →
      plan.countP (fun e => e.isMeasure) =
        dt_list.length * rep * (r1.length * r2.length)) := by
  have hmapM : [cfg1, cfg2].mapM (fun cfg => build_v_range fs sinv cfg sfl) =
      .ok [r1, r2] := by
    rw [List.mapM_cons, hr1, List.mapM_cons, hr2, List.mapM_nil]
    rfl
  have hfuse : ∀ dt_in : ℚ,
      (r1.flatMap (fun a => r2.map (fun b => [a, b]))).map
        (fun volt => PlanEntry.measure dt_in volt) =
      r1.flatMap (fun a =>
        r2.map (fun b => PlanEntry.measure dt_in [a, b])) := by
    intro dt_in
    rw [List.map_flatMap]
    apply flatMap_congr
    intro a _
    rw [List.map_map]
    apply List.map_congr_left
    intro b _
    rfl
  have hplan : build_plan fs sinv [cfg1, cfg2] dt_list rep round_delay sfl =
      .ok (dt_list.flatMap (fun dt_in => (List.range rep).flatMap (fun _ =>
        (r1.flatMap (fun a =>
          r2.map (fun b => PlanEntry.measure dt_in [a, b]))) ++
          (if round_delay > 0 then [PlanEntry.sleep round_delay] else [])))) := by
    rw [build_plan, hmapM]
    show Except.ok _ = _
    rw [build_groups_two_unlinked cfg1 cfg2 h1 h2, iterate_groups_pair]
    simp only [hfuse]
  refine ⟨hplan, ?_⟩
  intro plan hplan2
  rw [hplan] at hplan2
  have hp : plan = dt_list.flatMap (fun dt_in => (List.range rep).flatMap (fun _ =>
      (r1.flatMap (fun a =>
        r2.map (fun b => PlanEntry.measure dt_in [a, b]))) ++
        (if round_delay > 0 then [PlanEntry.sleep round_delay] else []))) :=
    (Except.ok.inj hplan2).symm
  rw [hp, List.countP_flatMap]
  have hinner : ∀ dt_in : ℚ, (List.countP (fun e => e.isMeasure) ∘
      fun dt_in => (List.range rep).flatMap (fun _ =>
        (r1.flatMap (fun a =>
          r2.map (fun b => PlanEntry.measure dt_in [a, b]))) ++
          (if round_delay > 0 then [PlanEntry.sleep round_delay] else [])))
        dt_in = rep * (r1.length * r2.length) := by
    intro dt_in
    simp only [Function.comp]
    rw [List.countP_flatMap]
    have : ∀ x : ℕ, (List.countP (fun e => e.isMeasure) ∘ fun _ =>
        (r1.flatMap (fun a =>
          r2.map (fun b => PlanEntry.measure dt_in [a, b]))) ++
          (if round_delay > 0 then [PlanEntry.sleep round_delay] else []))
          x = r1.length * r2.length := by
      intro x
      simp only [Function.comp]
      exact countP_pass r1 r2 dt_in round_delay
    rw [List.map_congr_left (fun x _ => this x)]
    simp [List.map_const', List.sum_const_nat, Nat.mul_comm]
  rw [List.map_congr_left (fun dt_in _ => hinner dt_in), List.map_const',
    List.sum_const_nat]
  ring

/-- An empty file system: every path is missing. -/
def fsEmpty : CsvFs := fun _ => none

/-- A trivial sine-sample model, used only to instantiate theorems. -/
def sinvZero : ℚ → ℚ := fun _ => 0

/-- A square-wave channel whose sequence (without the final low block)
is `[0, 1]`. -/
def squareDemo2 : ChannelConfig :=
  ⟨"k1.smua", "a", "Square", false, true, 0, 0, 0, 0, 1, 0, 0, 0, 1, 1, 0, 0,
    0, 0, 0, 1, "", false, false⟩

/-- A square-wave channel whose sequence (without the final low block)
is `[0, 1, 1]`. -/
def squareDemo3 : ChannelConfig :=
  ⟨"k1.smub", "b", "Square", false, true, 0, 0, 0, 0, 1, 0, 0, 0, 2, 1, 0, 0,
    0, 0, 0, 1, "", false, false⟩

/-- Witness for `build_plan_cross_product`: two unlinked square channels
with sequences `[0, 1]` and `[0, 1, 1]` (lengths 2 and 3) give the full
cross product, 6 Measure entries. -/
theorem build_plan_cross_product_witness :
    build_plan fsEmpty sinvZero [squareDemo2, squareDemo3] [1] 1 0 false =
      .ok (([1] : List ℚ).flatMap (fun dt_in =>
        (List.range 1).flatMap (fun _ =>
          (([0, 1] : List ℚ).flatMap (fun a =>
            ([0, 1, 1] : List ℚ).map
              (fun b => PlanEntry.measure dt_in [a, b]))) ++
            (if (0 : ℚ) > 0 then [PlanEntry.sleep 0] else [])))) ∧
    (∀ plan, build_plan fsEmpty sinvZero [squareDemo2, squareDemo3]
        [1] 1 0 false = .ok plan →
      plan.countP (fun e => e.isMeasure) =
        ([1] : List ℚ).length * 1 *
          (([0, 1] : List ℚ).length * ([0, 1, 1] : List ℚ).length)) :=
  build_plan_cross_product fsEmpty sinvZero squareDemo2 squareDemo3 [1] 1 0
    false [0, 1] [0, 1, 1] rfl rfl rfl rfl

/-- The candidate a plan entry contributes to the resume scan: a matching
measure entry's index and squared distance, nothing otherwise. -/
def cand_of (lv : List ℚ) (ie : ℕ × PlanEntry) : Option (ℕ × ℚ) :=
  match ie.2 with
  | .measure _ volt =>
    if volt.length = lv.length then some (ie.1, dist_sq volt lv) else none
  | .sleep _ => none

/-- All matching measure entries of a plan with their squared distances
to `lv`, in plan order. -/
def resume_candidates (plan : List PlanEntry) (lv : List ℚ) : List (ℕ × ℚ) :=
  plan.enum.filterMap (cand_of lv)

/-- The first pair of a list attaining the minimal second component
(`none` only for the empty list). -/
def first_min_index : List (ℕ × ℚ) → Option (ℕ × ℚ)
  | [] => none
  | p :: rest =>
    match first_min_index rest with
    | none => some p
    | some q => if p.2 ≤ q.2 then some p else some q

/-- The scan ignores skipped entries: it is the fold of `resume_step`
over the extracted candidates. -/
theorem foldl_scan_body_eq (lv : List ℚ) :
    ∀ (entries : List (ℕ × PlanEntry)) (st : Option ℚ × List (ℕ × ℚ)),
      entries.foldl (resume_scan_body lv) st =
        (entries.filterMap (cand_of lv)).foldl resume_step st := by
  intro entries
  induction entries with
  | nil => intro st; rfl
  | cons ie rest ih =>
    intro st
    obtain ⟨i, e⟩ := ie
    cases e with
    | sleep sec => simp [resume_scan_body, cand_of, ih]
    | measure dt volt =>
      by_cases hl : volt.length = lv.length
      · simp [resume_scan_body, cand_of, hl, ih]
      · simp [resume_scan_body, cand_of, hl, ih]

/-- Unfolding `first_min_index` when the tail has no minimum. -/
theorem first_min_index_cons_none (p : ℕ × ℚ) (rest : List (ℕ × ℚ))
    (h : first_min_index rest = none) :
    first_min_index (p :: rest) = some p := by
  rw [first_min_index, h]

/-- Unfolding `first_min_index` when the tail has minimum pair `s`. -/
theorem first_min_index_cons_some (p : ℕ × ℚ) (rest : List (ℕ × ℚ))
    (s : ℕ × ℚ) (h : first_min_index rest = some s) :
    first_min_index (p :: rest) = if p.2 ≤ s.2 then some p else some s := by
  rw [first_min_index, h]

/-- `first_min_index` misses only the empty list. -/
theorem first_min_index_eq_none (l : List (ℕ × ℚ)) :
    first_min_index l = none ↔ l = [] := by
  cases l with
  | nil => simp [first_min_index]
  | cons p rest =>
    constructor
    · intro h
      cases hr : first_min_index rest with
      | none =>
        rw [first_min_index_cons_none p rest hr] at h
        exact absurd h (by simp)
      | some s =>
        rw [first_min_index_cons_some p rest s hr] at h
        by_cases hps : p.2 ≤ s.2
        · rw [if_pos hps] at h; exact absurd h (by simp)
        · rw [if_neg hps] at h; exact absurd h (by simp)
    · intro h; exact absurd h (by simp)

/-- The result of `first_min_index` has minimal second component. -/
theorem first_min_index_le :
    ∀ (l : List (ℕ × ℚ)) (q : ℕ × ℚ), first_min_index l = some q →
      ∀ p ∈ l, q.2 ≤ p.2 := by
  intro l
  induction l with
  | nil => intro q hq; simp [first_min_index] at hq
  | cons p0 rest ih =>
    intro q hq p hp
    cases hr : first_min_index rest with
    | none =>
      rw [first_min_index_cons_none p0 rest hr] at hq
      have hq2 : p0 = q := Option.some.inj hq
      have hrest : rest = [] := (first_min_index_eq_none rest).1 hr
      rcases List.mem_cons.1 hp with rfl | hp2
      · rw [← hq2]
      · rw [hrest] at hp2
        exact absurd hp2 (List.not_mem_nil p)
    | some s =>
      rw [first_min_index_cons_some p0 rest s hr] at hq
      by_cases h0 : p0.2 ≤ s.2
      · rw [if_pos h0] at hq
        have hq2 : p0 = q := Option.some.inj hq
        rcases List.mem_cons.1 hp with rfl | hp2
        · rw [← hq2]
        · rw [← hq2]
          exact le_trans h0 (ih s hr p hp2)
      · rw [if_neg h0] at hq
        have hq2 : s = q := Option.some.inj hq
        rcases List.mem_cons.1 hp with rfl | hp2
        · rw [← hq2]
          exact le_of_lt (lt_of_not_le h0)
        · rw [← hq2]
          exact ih s hr p hp2

/-- Prepending a pair no better than the head does not change the first
minimum. -/
theorem first_min_index_cons_cons {i0 i : ℕ} {m d : ℚ}
    (ps : List (ℕ × ℚ)) (h : m ≤ d) :
    first_min_index ((i0, m) :: (i, d) :: ps) =
      first_min_index ((i0, m) :: ps) := by
  cases hr : first_min_index ps with
  | none =>
    have h1 : first_min_index ((i, d) :: ps) = some (i, d) :=
      first_min_index_cons_none (i, d) ps hr
    rw [first_min_index_cons_some (i0, m) ((i, d) :: ps) (i, d) h1,
      first_min_index_cons_none (i0, m) ps hr, if_pos h]
  | some s =>
    have h1 : first_min_index ((i, d) :: ps) =
        if d ≤ s.2 then some (i, d) else some s :=
      first_min_index_cons_some (i, d) ps s hr
    by_cases hds : d ≤ s.2
    · rw [if_pos hds] at h1
      rw [first_min_index_cons_some (i0, m) ((i, d) :: ps) (i, d) h1,
        first_min_index_cons_some (i0, m) ps s hr, if_pos h,
        if_pos (le_trans h hds)]
    · rw [if_neg hds] at h1
      rw [first_min_index_cons_some (i0, m) ((i, d) :: ps) s h1,
        first_min_index_cons_some (i0, m) ps s hr]

/-- The loop invariant of the scan: starting from a state whose best is
`m`, first achieved by candidate `i0`, the fold ends with the best and
head candidate given by the first minimum of `(i0, m)` followed by the
remaining pairs. -/
theorem resume_fold_spec :
    ∀ (ps : List (ℕ × ℚ)) (m : ℚ) (i0 : ℕ) (tail : List (ℕ × ℚ)),
      ∃ (q : ℕ × ℚ) (tail2 : List (ℕ × ℚ)),
        first_min_index ((i0, m) :: ps) = some q ∧
        ps.foldl resume_step (some m, (i0, m) :: tail) = (some q.2, q :: tail2) := by
  intro ps
  induction ps with
  | nil =>
    intro m i0 tail
    exact ⟨(i0, m), tail, first_min_index_cons_none (i0, m) [] rfl, rfl⟩
  | cons pd ps2 ih =>
    intro m i0 tail
    obtain ⟨i, d⟩ := pd
    rw [List.foldl_cons]
    by_cases hd : d < m
    · have hstep : resume_step (some m, (i0, m) :: tail) (i, d) =
          (some d, [(i, d)]) := by
        simp [resume_step, hd]
      rw [hstep]
      obtain ⟨q, t2, hfmi, hfold⟩ := ih d i []
      refine ⟨q, t2, ?_, hfold⟩
      have hqd : q.2 ≤ d :=
        first_min_index_le _ q hfmi (i, d) (List.mem_cons_self _ _)
      have hnm : ¬ m ≤ q.2 := not_le.mpr (lt_of_le_of_lt hqd hd)
      rw [first_min_index_cons_some (i0, m) ((i, d) :: ps2) q hfmi, if_neg hnm]
    · have hmd : m ≤ d := le_of_not_lt hd
      have hfm : first_min_index ((i0, m) :: (i, d) :: ps2) =
          first_min_index ((i0, m) :: ps2) := first_min_index_cons_cons ps2 hmd
      have hstep2 : ∃ tail3, resume_step (some m, (i0, m) :: tail) (i, d) =
          (some m, (i0, m) :: tail3) := by
        by_cases ht : d ≤ m + max (1 / 10 ^ 12) (m * (1 / 10 ^ 6))
        · exact ⟨tail ++ [(i, d)], by
            simp only [resume_step]
            rw [if_neg hd, if_pos ht]
            rfl⟩
        · exact ⟨tail, by
            simp only [resume_step]
            rw [if_neg hd, if_neg ht]⟩
      obtain ⟨tail3, hstep⟩ := hstep2
      rw [hstep]
      obtain ⟨q, t2, hfmi, hfold⟩ := ih m i0 tail3
      exact ⟨q, t2, by rw [hfm]; exact hfmi, hfold⟩

/-- Claim C1, amended.  Without a `last_delta`, `find_resume_index`
returns the index of the first matching Measure entry that attains the
minimum squared distance exactly.  (Candidates within the relative
tolerance of the running best are collected, but each strict improvement
resets the collection, so entries earlier than the first minimiser are
discarded even when they lie within the tolerance of the final
minimum — the returned candidate is the first argmin, not the first
within-tolerance entry.) -/
theorem find_resume_index_first_min (plan : List PlanEntry) (lv : List ℚ) :
    find_resume_index plan lv =
      (first_min_index (resume_candidates plan lv)).map Prod.fst := by
  rw [find_resume_index]
  by_cases hp : plan = []
  · subst hp
    simp [resume_candidates, first_min_index, resume_scan]
  · rw [if_neg hp]
    have hscan : resume_scan lv plan.enum =
        (resume_candidates plan lv).foldl resume_step (none, []) := by
      rw [resume_scan, resume_candidates]
      exact foldl_scan_body_eq lv plan.enum (none, [])
    rw [hscan]
    cases hc : resume_candidates plan lv with
    | nil => simp [first_min_index]
    | cons p ps =>
      obtain ⟨i, dd⟩ := p
      rw [List.foldl_cons]
      have hstep : resume_step (none, []) (i, dd) = (some dd, [(i, dd)]) := by
        simp [resume_step]
      rw [hstep]
      obtain ⟨q, t2, hfmi, hfold⟩ := resume_fold_spec ps dd i []
      rw [hfold, hfmi]
      rfl

/-- The resume rule as claim C1 words it (a second definition following
the specification, to compare against the code's `find_resume_index`):
compute the global minimum squared distance over all matching Measure
entries, and return the first entry in plan order whose distance lies
within `max(1e-12, best * 1e-6)` of that minimum. -/
def resume_spec_first_within_tol (plan : List PlanEntry) (lv : List ℚ) :
    Option ℕ :=
  match resume_candidates plan lv with
  | [] => none
  | c :: cs =>
    let best := (cs.map Prod.snd).foldl min c.2
    let tol := max (1 / 10 ^ 12) (best * (1 / 10 ^ 6))
    (((c :: cs).filter (fun p => p.2 ≤ best + tol)).head?).map Prod.fst

/-- A plan whose first entry lies within the claimed tolerance of the
global minimum but earlier than the minimiser: distances are `1e-12`
(entry 0) and `0` (entry 1), and the tolerance around the minimum is
`max(1e-12, 0) = 1e-12`. -/
def resumeNearTiePlan : List PlanEntry :=
  [.measure 1 [1 / 1000000], .measure 1 [0]]

/-- Claim C1, counterexample.  On `resumeNearTiePlan` with
`last_voltages = [0]`, entry 0 lies within `max(1e-12, best * 1e-6)` of
the global minimum distance, so the claim says the first tied candidate —
entry 0 — is returned; the code returns entry 1: each strict improvement
of the running best discards the earlier within-tolerance candidates. -/
theorem find_resume_index_tolerance_counterexample :
    find_resume_index resumeNearTiePlan [0] = some 1 ∧
    resume_spec_first_within_tol resumeNearTiePlan [0] = some 0 ∧
    dist_sq [1 / 1000000] [0] ≤ 0 + max (1 / 10 ^ 12) (0 * (1 / 10 ^ 6)) := by
  refine ⟨?_, ?_, ?_⟩
  · norm_num [find_resume_index, resumeNearTiePlan, resume_scan,
      resume_scan_body, resume_step, dist_sq, List.enum]
    simp
  · norm_num [resume_spec_first_within_tol, resumeNearTiePlan,
      resume_candidates, cand_of, dist_sq, List.enum, List.filterMap_cons,
      min_def, max_def, List.find?]
  · norm_num [dist_sq]

end KeithleyGui
